import Mathlib

/-!
Verification of the task-loading and builtin-threading engine of the
cairo-bootloader repository, by a shallow embedding of the relevant Rust
functions (src/hints/execute_task_hints.rs, src/hints/simple_bootloader_hints.rs,
src/hints/types.rs, src/tasks.rs) into Lean.

Machine memory is modelled as a partial map from relocatable addresses to
cell values; hint functions that mutate the VM are modelled as functions
returning the updated state (or the values they write) in an `Except`
with an explicit error type mirroring `HintError`.
-/

namespace CairoBootloader

/-- Field elements (`Felt252`). Only equality of felts matters for the claims
considered here, so we model them as natural numbers. -/
abbrev Felt := Nat

/-- A relocatable address `(segment_index, offset)` as in `cairo_vm`. -/
structure Relocatable where
  segment_index : Int
  offset : Nat
deriving DecidableEq, Repr

/-- Address plus a `usize`: stays in the same segment, advances the offset
(`Relocatable + usize` in `cairo_vm`; the u64 overflow check is unreachable
at the sizes involved here and is not modelled). -/
def Relocatable.add (r : Relocatable) (n : Nat) : Relocatable :=
  ⟨r.segment_index, r.offset + n⟩

/-- A memory cell value: either a relocatable address or a field element
(`MaybeRelocatable` in `cairo_vm`). -/
inductive MaybeRelocatable where
  | rel (r : Relocatable)
  | int (v : Felt)
deriving DecidableEq, Repr

/-- Errors surfaced by the hints (the constructors used by the embedded code,
mirroring `HintError` / `MemoryError` / `MathError`). -/
inductive HintError where
  | AssertionFailed (msg : String)
  | UnknownMemoryCell (a : Relocatable)
  | MemoryGet (a : Relocatable)
  | InconsistentMemory (a : Relocatable)
  | Math
  | CustomHint (msg : String)
  | MissingBuiltinKey
  | IndexOob
  | SubOverflow
deriving DecidableEq, Repr

/-- VM memory: a partial map from addresses to cell values. -/
abbrev Mem := Relocatable → Option MaybeRelocatable

/-- Functional update of one memory cell. -/
def Mem.set (m : Mem) (a : Relocatable) (v : MaybeRelocatable) : Mem :=
  fun x => if x = a then some v else m x

/-- Finite memory described by an association list (used to build concrete
memories in witnesses). -/
def memOf (l : List (Relocatable × MaybeRelocatable)) : Mem :=
  fun a => l.lookup a

/-- The `vm.get_relocatable` read: fails unless the cell holds a relocatable. -/
def getRelocatable (m : Mem) (a : Relocatable) : Except HintError Relocatable :=
  match m a with
  | some (.rel r) => .ok r
  | _ => .error (.MemoryGet a)

/-- The `vm.get_integer` read: fails unless the cell holds a field element. -/
def getInteger (m : Mem) (a : Relocatable) : Except HintError Felt :=
  match m a with
  | some (.int v) => .ok v
  | _ => .error (.MemoryGet a)

/-- The `vm.insert_value` write: writing an unset cell sets it, re-writing the
same value is a no-op, overwriting a different value is an error. -/
def insertValue (m : Mem) (a : Relocatable) (v : MaybeRelocatable) : Except HintError Mem :=
  match m a with
  | none => .ok (m.set a v)
  | some v0 => if v0 = v then .ok m else .error (.InconsistentMemory a)

/-- Subtraction of relocatables (`Relocatable - Relocatable` in `cairo_vm`):
defined only within one segment and when the result is non-negative. -/
def relocatableSub (a b : Relocatable) : Except HintError Nat :=
  if a.segment_index = b.segment_index then
    if b.offset ≤ a.offset then .ok (a.offset - b.offset) else .error .Math
  else .error .Math

/-- The well-known builtin (resource capability) names used by the bootloader. -/
inductive BuiltinName where
  | output
  | pedersen
  | range_check
  | ecdsa
  | bitwise
  | ec_op
  | keccak
  | poseidon
  | range_check96
  | add_mod
  | mul_mod
deriving DecidableEq, Repr, Fintype

/-- List of all builtins in the order used by the bootloader
(`ALL_BUILTINS` in src/hints/execute_task_hints.rs). -/
def ALL_BUILTINS : List BuiltinName :=
  [.output, .pedersen, .range_check, .ecdsa, .bitwise, .ec_op,
   .keccak, .poseidon, .range_check96, .add_mod, .mul_mod]

/-- A stripped program: code words, builtin list and entry point
(`StrippedProgram` in `cairo_vm`). -/
structure StrippedProgram where
  data : List Felt
  builtins : List BuiltinName
  main : Nat
deriving DecidableEq, Repr

/-- A compiled program; `main` is optional as in `cairo_vm::types::program::Program`
(only the fields the embedded code reads are modelled). -/
structure Program where
  data : List Felt
  builtins : List BuiltinName
  main : Option Nat
deriving DecidableEq, Repr

/-- The `Program::get_stripped_program` conversion: fails when the program has
no `main` entry point. -/
def Program.get_stripped_program (p : Program) : Except String StrippedProgram :=
  match p.main with
  | some m => .ok ⟨p.data, p.builtins, m⟩
  | none => .error "main not found"

/-- The `Program::from_stripped_program` conversion. -/
def Program.from_stripped_program (sp : StrippedProgram) : Program :=
  ⟨sp.data, sp.builtins, some sp.main⟩

/-- A serialized execution artifact (`CairoPie`): its program metadata and the
per-builtin usage sizes from `metadata.builtin_segments` (the only parts of the
PIE the embedded code reads). -/
structure CairoPie where
  program : StrippedProgram
  builtin_segments : List (BuiltinName × Nat)
deriving DecidableEq, Repr

/-- Lookup of `cairo_pie.metadata.builtin_segments[builtin_name].size`
(indexing a missing key panics in Rust; modelled as `none` and turned into an
error by the caller). -/
def CairoPie.builtin_segment_size (pie : CairoPie) (b : BuiltinName) : Option Nat :=
  pie.builtin_segments.lookup b

/-- Program input mapping; JSON values are opaque to the embedded code and are
modelled as numerals. -/
abbrev ProgramInput := List (String × Nat)

/-- The `RunProgramTask` variant (src/hints/types.rs). -/
structure RunProgramTask where
  program : Program
  program_input : ProgramInput
  use_poseidon : Bool
deriving DecidableEq, Repr

/-- The `CairoPieTask` variant (src/hints/types.rs). -/
structure CairoPieTask where
  cairo_pie : CairoPie
  use_poseidon : Bool
deriving DecidableEq, Repr

/-- A loaded task (the closed set of implementors of the `Task` trait). -/
inductive Task where
  | runProgram (t : RunProgramTask)
  | cairoPie (t : CairoPieTask)
deriving DecidableEq, Repr

/-- A PIE file path, abstracted to an identifier. -/
abbrev PiePath := Nat

/-- The `CairoPiePath` variant of `TaskSpec` (src/hints/types.rs). -/
structure CairoPiePath where
  path : PiePath
  use_poseidon : Bool
deriving DecidableEq, Repr

/-- The `TaskSpec` tagged union (src/hints/types.rs). -/
inductive TaskSpec where
  | runProgram (t : RunProgramTask)
  | cairoPiePath (p : CairoPiePath)
  | cairoPieTask (t : CairoPieTask)
deriving DecidableEq, Repr

/-- The ambient file storage: what `Program::from_file` and
`CairoPie::read_zip_file` return for each path (errors are I/O or parse
failures, carried as strings). -/
structure FileSystem where
  program_file : Nat → Except String Program
  pie_file : PiePath → Except String CairoPie

/-- The `TaskSpec::load_task` resolution (src/hints/types.rs): in-memory
variants load immediately; a `CairoPiePath` reads the PIE from storage and is
fallible. -/
def TaskSpec.load_task (fs : FileSystem) : TaskSpec → Except String Task
  | .runProgram t => .ok (.runProgram t)
  | .cairoPiePath p =>
    match fs.pie_file p.path with
    | .ok pie => .ok (.cairoPie ⟨pie, p.use_poseidon⟩)
    | .error e => .error e
  | .cairoPieTask t => .ok (.cairoPie t)

/-- The `get_task_from_exec_scopes` helper (src/hints/execute_task_hints.rs):
resolves the scoped task via `load_task`, converting a load failure into
`HintError::CustomHint`. -/
def get_task_from_exec_scopes (fs : FileSystem) (spec : TaskSpec) : Except HintError Task :=
  match spec.load_task fs with
  | .ok t => .ok t
  | .error e => .error (.CustomHint e)

/-- The `Task::get_program` method of both task variants (src/hints/types.rs). -/
def Task.get_program : Task → Except String Program
  | .runProgram t => .ok t.program
  | .cairoPie t => .ok (Program.from_stripped_program t.cairo_pie.program)

/-- The `get_stripped_program_from_task` helper (src/hints/execute_task_hints.rs). -/
def get_stripped_program_from_task (task : Task) : Except HintError StrippedProgram :=
  match task.get_program with
  | .error e => .error (.CustomHint e)
  | .ok p =>
    match p.get_stripped_program with
    | .error e => .error (.CustomHint e)
    | .ok sp => .ok sp

/-- Hint extension maps are modelled as association lists; every hint treated
here returns an empty one (`HashMap::new()`). -/
abbrev HintExtension := List (Relocatable × Nat)

/-- The `check_cairo_pie_builtin_usage` check (src/hints/execute_task_hints.rs):
reads the return and pre-execution pointers of one builtin slot and asserts
that their difference equals the usage size recorded in the PIE metadata. -/
def check_cairo_pie_builtin_usage (m : Mem) (builtin_name : BuiltinName)
    (builtin_index : Nat) (cairo_pie : CairoPie)
    (return_builtins_addr pre_execution_builtins_addr : Relocatable) :
    Except HintError Unit :=
  match getRelocatable m (return_builtins_addr.add builtin_index) with
  | .error e => .error e
  | .ok return_builtin_value =>
    match getRelocatable m (pre_execution_builtins_addr.add builtin_index) with
    | .error e => .error e
    | .ok pre_execution_builtin_value =>
      match relocatableSub return_builtin_value pre_execution_builtin_value with
      | .error e => .error e
      | .ok expected_builtin_size =>
        match cairo_pie.builtin_segment_size builtin_name with
        | none => .error .MissingBuiltinKey
        | some builtin_size =>
          if builtin_size ≠ expected_builtin_size then
            .error (.AssertionFailed "Builtin usage is inconsistent with the CairoPie.")
          else .ok ()

/-- The loop body of `write_return_builtins` (src/hints/execute_task_hints.rs),
recursing over the remaining suffix of `ALL_BUILTINS` with the current slot
index and the current offset into the densely packed used-pointer sequence. -/
def wrbLoop (task : Task) (used_builtins : List BuiltinName)
    (return_builtins_addr used_builtins_addr pre_execution_builtins_addr : Relocatable) :
    List BuiltinName → Nat → Nat → Mem → Except HintError Mem
  | [], _, _, m => .ok m
  | b :: bs, index, used_builtin_offset, m =>
    if used_builtins.contains b then
      match getRelocatable m (used_builtins_addr.add used_builtin_offset) with
      | .error e => .error e
      | .ok builtin_value =>
        match insertValue m (return_builtins_addr.add index) (.rel builtin_value) with
        | .error e => .error e
        | .ok m1 =>
          match task with
          | .cairoPie t =>
            match check_cairo_pie_builtin_usage m1 b index t.cairo_pie
                return_builtins_addr pre_execution_builtins_addr with
            | .error e => .error e
            | .ok _ =>
              wrbLoop task used_builtins return_builtins_addr used_builtins_addr
                pre_execution_builtins_addr bs (index + 1) (used_builtin_offset + 1) m1
          | .runProgram _ =>
            wrbLoop task used_builtins return_builtins_addr used_builtins_addr
              pre_execution_builtins_addr bs (index + 1) (used_builtin_offset + 1) m1
    else
      match m (pre_execution_builtins_addr.add index) with
      | none => .error (.UnknownMemoryCell (pre_execution_builtins_addr.add index))
      | some pre_execution_value =>
        match insertValue m (return_builtins_addr.add index) pre_execution_value with
        | .error e => .error e
        | .ok m1 =>
          wrbLoop task used_builtins return_builtins_addr used_builtins_addr
            pre_execution_builtins_addr bs (index + 1) used_builtin_offset m1

/-- The `write_return_builtins` function (src/hints/execute_task_hints.rs):
iterates over `ALL_BUILTINS`, copying the next packed used pointer into the
slot of each used builtin (and cross-checking PIE usage for CairoPie tasks)
and the pre-execution value into the slot of each unused builtin. -/
def write_return_builtins (m : Mem) (return_builtins_addr : Relocatable)
    (used_builtins : List BuiltinName)
    (used_builtins_addr pre_execution_builtins_addr : Relocatable)
    (task : Task) : Except HintError Mem :=
  wrbLoop task used_builtins return_builtins_addr used_builtins_addr
    pre_execution_builtins_addr ALL_BUILTINS 0 0 m

/-- Number of used builtins among the first `k` entries of `bs`: the offset
into the packed used-pointer sequence at which slot `k` reads its value. -/
def relPack (used_builtins bs : List BuiltinName) (k : Nat) : Nat :=
  ((bs.take k).filter (fun b => used_builtins.contains b)).length

/-- Offset into the packed used-pointer sequence consumed by slot `i` of the
canonical builtin order. -/
def packIndex (used_builtins : List BuiltinName) (i : Nat) : Nat :=
  relPack used_builtins ALL_BUILTINS i

/-- The `validate_hash` hint (src/hints/execute_task_hints.rs): compares the
felt committed at `output_ptr + 1` with the program hash chain. The function
`hash_chain` stands for `compute_program_hash_chain` (src/hints/program_hash.rs
is not among the sources); the implementation calls it as
`compute_program_hash_chain(&program, 0)`, with the literal `0` as second
argument, so no datum of the task other than its stripped program reaches the
hash computation. -/
def validate_hash (hash_chain : StrippedProgram → Nat → Felt) (fs : FileSystem)
    (spec : TaskSpec) (m : Mem) (output_ptr : Relocatable) :
    Except HintError HintExtension :=
  match get_task_from_exec_scopes fs spec with
  | .error e => .error e
  | .ok task =>
    match get_stripped_program_from_task task with
    | .error e => .error e
    | .ok program =>
      match getInteger m (output_ptr.add 1) with
      | .error e => .error e
      | .ok program_hash =>
        if program_hash ≠ hash_chain program 0 then
          .error (.AssertionFailed "Computed hash does not match input")
        else .ok []

/-- Result of loading a program into memory: the address where the code starts
and the total number of words written (header plus code). -/
structure LoadedProgram where
  code_address : Relocatable
  size : Nat
deriving DecidableEq, Repr

/-- Modelled from the spec: `ProgramLoader::load_program`
(src/hints/program_loader.rs is not among the sources). Per the spec it writes
a fixed-layout header — `builtins_offset` metadata words followed by the
builtin-capability list — and then the program's code words, starting at the
given header address, and returns the address immediately after the header
(where code begins) together with the total number of words written. -/
def ProgramLoader.load_program (builtins_offset : Nat) (base : Relocatable)
    (program : StrippedProgram) : LoadedProgram :=
  let header_size := builtins_offset + program.builtins.length
  { code_address := base.add header_size
    size := header_size + program.data.length }

/-- The `load_program_hint` hint (src/hints/execute_task_hints.rs): loads the
current task's stripped program at `program_header_ptr` with
`builtins_offset = 4` and bootloader version 0, finalizes the program-data
segment to the loaded size, and records the code address. The returned triple
is (code address recorded in the scope, finalized segment index, finalized
segment size). -/
def load_program_hint (fs : FileSystem) (program_data_base : Relocatable)
    (spec : TaskSpec) (program_header_ptr : Relocatable) :
    Except HintError (Relocatable × Int × Nat) :=
  match get_task_from_exec_scopes fs spec with
  | .error e => .error e
  | .ok task =>
    match get_stripped_program_from_task task with
    | .error e => .error e
    | .ok program =>
      let builtins_offset := 4
      let loaded_program := ProgramLoader.load_program builtins_offset program_header_ptr program
      .ok (loaded_program.code_address, program_data_base.segment_index, loaded_program.size)

/-- The page bookkeeping of the output builtin runner that
`get_task_fact_topology` consults: the sizes of the explicitly tracked output
pages (in page order) and the recorded tree structure attribute. -/
structure OutputBuiltinState where
  pages : List Nat
  tree_structure : List Nat
deriving DecidableEq, Repr

/-- A fact topology: page sizes (first entry the header page, possibly of size
zero) and the flat tree-structure descriptor. -/
structure FactTopology where
  page_sizes : List Nat
  tree_structure : List Nat
deriving DecidableEq, Repr

/-- Modelled from the spec: `get_task_fact_topology`
(src/hints/fact_topologies.rs is not among the sources). Per the spec, for a
task backed by a serialized-execution artifact the output is a single page of
size `output_size` with no internal structure; for a freshly-run task the page
sizes come from the output builtin's page tracking, headed by the header page
(whatever part of the output precedes the tracked pages), and the tree
structure from the recorded attribute; inconsistent page tracking is a fatal
error. -/
def get_task_fact_topology (output_size : Nat) (task : Task)
    (output_state : OutputBuiltinState) : Except HintError FactTopology :=
  match task with
  | .cairoPie _ => .ok ⟨[output_size], []⟩
  | .runProgram _ =>
    if output_state.pages.sum ≤ output_size then
      .ok ⟨(output_size - output_state.pages.sum) :: output_state.pages,
           output_state.tree_structure⟩
    else .error (.CustomHint "Invalid page sizes")

/-- The `append_fact_topologies` hint (src/hints/execute_task_hints.rs): reads
the output pointers from the first slots of the pre-execution and return
builtin records, computes the output size as their difference, obtains the
task's fact topology, and appends it to the run-wide list. -/
def append_fact_topologies (fs : FileSystem) (spec : TaskSpec)
    (output_state : OutputBuiltinState) (m : Mem)
    (pre_execution_builtin_ptrs_addr return_builtin_ptrs_addr : Relocatable)
    (fact_topologies : List FactTopology) : Except HintError (List FactTopology) :=
  match get_task_from_exec_scopes fs spec with
  | .error e => .error e
  | .ok task =>
    match getRelocatable m pre_execution_builtin_ptrs_addr with
    | .error e => .error e
    | .ok output_start =>
      match getRelocatable m return_builtin_ptrs_addr with
      | .error e => .error e
      | .ok output_end =>
        match relocatableSub output_end output_start with
        | .error e => .error e
        | .ok output_size =>
          match get_task_fact_topology output_size task output_state with
          | .error e => .error e
          | .ok fact_topology => .ok (fact_topologies ++ [fact_topology])

/-- The per-call inputs of one `append_fact_topologies` invocation. -/
structure AppendCall where
  spec : TaskSpec
  output_state : OutputBuiltinState
  m : Mem
  preA : Relocatable
  retA : Relocatable

/-- The fact topology one `append_fact_topologies` call computes, independent
of the accumulated list. -/
def call_topology (fs : FileSystem) (c : AppendCall) : Except HintError FactTopology :=
  match get_task_from_exec_scopes fs c.spec with
  | .error e => .error e
  | .ok task =>
    match getRelocatable c.m c.preA with
    | .error e => .error e
    | .ok output_start =>
      match getRelocatable c.m c.retA with
      | .error e => .error e
      | .ok output_end =>
        match relocatableSub output_end output_start with
        | .error e => .error e
        | .ok output_size => get_task_fact_topology output_size task c.output_state

/-- Iterating `append_fact_topologies` over a sequence of per-task calls,
threading the run-wide fact-topology list through. -/
def run_append_calls (fs : FileSystem) :
    List AppendCall → List FactTopology → Except HintError (List FactTopology)
  | [], fts => .ok fts
  | c :: cs, fts =>
    match append_fact_topologies fs c.spec c.output_state c.m c.preA c.retA fts with
    | .error e => .error e
    | .ok fts1 => run_append_calls fs cs fts1

/-- The simple bootloader run configuration (src/hints/types.rs). -/
structure SimpleBootloaderInput where
  fact_topologies_path : Option Nat
  single_page : Bool
  tasks : List TaskSpec

/-- Conversion of a felt to a `usize` (`Felt252::to_usize`), failing for values
that do not fit in 64 bits. -/
def feltToUsize (f : Felt) : Except HintError Nat :=
  if f < 2 ^ 64 then .ok f else .error .Math

/-- The `set_ap_to_zero_or_one` hint (src/hints/simple_bootloader_hints.rs):
selects the current task by index, loads it, and writes 1 to the AP register
if the loaded task is a `RunProgramTask` with `use_poseidon` set, otherwise 0;
a failed `load_task` also yields 0. The returned felt is the value written to
AP. The out-of-range cases model the Rust subtraction/indexing panics. -/
def set_ap_to_zero_or_one (fs : FileSystem) (input : SimpleBootloaderInput)
    (n_tasks_felt : Felt) : Except HintError Felt :=
  match feltToUsize n_tasks_felt with
  | .error e => .error e
  | .ok n_tasks =>
    if n_tasks ≤ input.tasks.length then
      match input.tasks.get? (input.tasks.length - n_tasks) with
      | none => .error .IndexOob
      | some spec =>
        let use_poseidon :=
          match spec.load_task fs with
          | .ok (.runProgram t) => t.use_poseidon
          | .ok _ => false
          | .error _ => false
        .ok (if use_poseidon then 1 else 0)
    else .error .SubOverflow

/-- The `set_current_task` hint (src/hints/simple_bootloader_hints.rs): selects
the current task by index, loads it, and stores the corresponding `TaskSpec`
in the scope; a failed `load_task` is reported as `CustomHint "Task not
found"`. The returned value is the `TaskSpec` stored in the scope. -/
def set_current_task (fs : FileSystem) (input : SimpleBootloaderInput)
    (n_tasks_felt : Felt) : Except HintError TaskSpec :=
  match feltToUsize n_tasks_felt with
  | .error e => .error e
  | .ok n_tasks =>
    if n_tasks ≤ input.tasks.length then
      match input.tasks.get? (input.tasks.length - n_tasks) with
      | none => .error .IndexOob
      | some spec =>
        match spec.load_task fs with
        | .ok (.runProgram t) => .ok (.runProgram t)
        | .ok (.cairoPie t) => .ok (.cairoPieTask t)
        | .error _ => .error (.CustomHint "Task not found")
    else .error .SubOverflow

/-- The error type of `make_bootloader_tasks` (src/tasks.rs). -/
inductive BootloaderTaskError where
  | program (e : String)
  | pie (e : String)
deriving DecidableEq, Repr

/-- Outcome of `make_bootloader_tasks`: the `assert_eq!` length check panics
(`lengthMismatch`), file errors abort with a `BootloaderTaskError`, otherwise
the task list is returned. -/
inductive MakeTasksResult where
  | lengthMismatch
  | err (e : BootloaderTaskError)
  | ok (tasks : List TaskSpec)
deriving DecidableEq, Repr

/-- The program-loading phase of `make_bootloader_tasks` (src/tasks.rs): reads
each program file in order, pairing it with its input, stopping at the first
failure. -/
def load_program_tasks (fs : FileSystem) :
    List Nat → List ProgramInput → Except BootloaderTaskError (List TaskSpec)
  | [], _ => .ok []
  | _ :: _, [] => .ok []
  | p :: ps, inp :: inps =>
    match fs.program_file p with
    | .error e => .error (.program e)
    | .ok program =>
      match load_program_tasks fs ps inps with
      | .error e => .error e
      | .ok ts => .ok (.runProgram ⟨program, inp, false⟩ :: ts)

/-- The PIE-loading phase of `make_bootloader_tasks` (src/tasks.rs): reads each
PIE file in order, stopping at the first failure. -/
def load_pie_tasks (fs : FileSystem) :
    List PiePath → Except BootloaderTaskError (List TaskSpec)
  | [] => .ok []
  | p :: ps =>
    match fs.pie_file p with
    | .error e => .error (.pie e)
    | .ok cairo_pie =>
      match load_pie_tasks fs ps with
      | .error e => .error e
      | .ok ts => .ok (.cairoPieTask ⟨cairo_pie, false⟩ :: ts)

/-- The `make_bootloader_tasks` constructor (src/tasks.rs): when both program
paths and inputs are provided their lengths are asserted equal and each program
becomes a `RunProgram` task; then each provided PIE path becomes a
`CairoPieTask`; every task gets `use_poseidon = false`; the first file error
aborts the whole call. -/
def make_pie_phase (fs : FileSystem) (pies : Option (List PiePath))
    (acc : List TaskSpec) : MakeTasksResult :=
  match pies with
  | none => .ok acc
  | some ps =>
    match load_pie_tasks fs ps with
    | .error e => .err e
    | .ok ts => .ok (acc ++ ts)

/-- The body of `make_bootloader_tasks` after the PIE phase was factored out:
when both program paths and inputs are provided their lengths are asserted
equal and the program phase runs first; otherwise only the PIE phase runs. -/
def make_bootloader_tasks (fs : FileSystem) (programs : Option (List Nat))
    (program_inputs : Option (List ProgramInput)) (pies : Option (List PiePath)) :
    MakeTasksResult :=
  match programs, program_inputs with
  | some ps, some inps =>
    if ps.length = inps.length then
      match load_program_tasks fs ps inps with
      | .error e => .err e
      | .ok ts => make_pie_phase fs pies ts
    else .lengthMismatch
  | _, _ => make_pie_phase fs pies []

theorem Relocatable.add_segment (r : Relocatable) (n : Nat) :
    (r.add n).segment_index = r.segment_index := rfl

theorem Relocatable.add_ne_of_ne {r s : Relocatable} (i j : Nat)
    (h : s.segment_index ≠ r.segment_index) : s.add i ≠ r.add j := by
  intro heq
  have h2 : (s.add i).segment_index = (r.add j).segment_index :=
    congrArg (fun a : Relocatable => a.segment_index) heq
  exact h h2

theorem Relocatable.add_ne_of_index_ne (r : Relocatable) {i j : Nat} (h : i ≠ j) :
    r.add i ≠ r.add j := by
  intro heq
  have : r.offset + i = r.offset + j := congrArg Relocatable.offset heq
  exact h (Nat.add_left_cancel this)

theorem Mem.set_self (m : Mem) (a : Relocatable) (v : MaybeRelocatable) :
    (m.set a v) a = some v := by
  simp [Mem.set]

theorem Mem.set_ne (m : Mem) (a : Relocatable) (v : MaybeRelocatable)
    {x : Relocatable} (h : x ≠ a) : (m.set a v) x = m x := by
  simp [Mem.set, h]

theorem insertValue_ok_at {m : Mem} {a : Relocatable} {v : MaybeRelocatable} {m' : Mem}
    (h : insertValue m a v = .ok m') :
    m' a = some v ∧ ∀ x, x ≠ a → m' x = m x := by
  unfold insertValue at h
  split at h
  next hm =>
    cases h
    exact ⟨Mem.set_self m a v, fun x hx => Mem.set_ne m a v hx⟩
  next v0 hm =>
    split at h
    next hv =>
      cases h
      exact ⟨hv ▸ hm, fun _ _ => rfl⟩
    next => cases h

theorem insertValue_of_none {m : Mem} {a : Relocatable} (v : MaybeRelocatable)
    (h : m a = none) : insertValue m a v = .ok (m.set a v) := by
  unfold insertValue
  rw [h]

theorem getRelocatable_ok {m : Mem} {a : Relocatable} {r : Relocatable}
    (h : getRelocatable m a = .ok r) : m a = some (.rel r) := by
  unfold getRelocatable at h
  cases hm : m a with
  | none => rw [hm] at h; cases h
  | some v =>
    cases v with
    | rel r0 => rw [hm] at h; cases h; rfl
    | int v0 => rw [hm] at h; cases h

theorem getRelocatable_of_eq {m : Mem} {a : Relocatable} {r : Relocatable}
    (h : m a = some (.rel r)) : getRelocatable m a = .ok r := by
  unfold getRelocatable
  rw [h]

theorem relPack_zero (used bs : List BuiltinName) : relPack used bs 0 = 0 := by
  simp [relPack]

theorem relPack_cons_true {used : List BuiltinName} {b : BuiltinName}
    (bs : List BuiltinName) (k : Nat) (h : used.contains b = true) :
    relPack used (b :: bs) (k + 1) = relPack used bs k + 1 := by
  have hmem : b ∈ used := by simpa using h
  simp [relPack, List.take_succ_cons, List.filter_cons, hmem]

theorem relPack_cons_false {used : List BuiltinName} {b : BuiltinName}
    (bs : List BuiltinName) (k : Nat) (h : used.contains b = false) :
    relPack used (b :: bs) (k + 1) = relPack used bs k := by
  have hmem : ¬ b ∈ used := by simpa using h
  simp [relPack, List.take_succ_cons, List.filter_cons, hmem]

/-- Characterization of a successful `wrbLoop` run, for the slots it processes:
provided the return record does not alias the used-pointer pack or the
pre-execution record, each processed slot of the return record ends up holding
the next packed used pointer (for used builtins) or the unchanged
pre-execution value (for unused builtins), and no other memory cell changes. -/
theorem wrbLoop_run (task : Task) (used : List BuiltinName)
    (retA usedA preA : Relocatable)
    (hpre : preA.segment_index ≠ retA.segment_index)
    (husd : usedA.segment_index ≠ retA.segment_index) :
    ∀ (bs : List BuiltinName) (i0 u0 : Nat) (m m' : Mem),
      wrbLoop task used retA usedA preA bs i0 u0 m = .ok m' →
      ((∀ k b, bs.get? k = some b →
          (used.contains b = true →
            m' (retA.add (i0 + k)) = m (usedA.add (u0 + relPack used bs k)) ∧
            ∃ r, m (usedA.add (u0 + relPack used bs k)) = some (.rel r)) ∧
          (used.contains b = false →
            m' (retA.add (i0 + k)) = m (preA.add (i0 + k)) ∧
            ∃ v, m (preA.add (i0 + k)) = some v)) ∧
       (∀ x, (∀ k, k < bs.length → x ≠ retA.add (i0 + k)) → m' x = m x)) := by
  intro bs
  induction bs with
  | nil =>
    intro i0 u0 m m' hok
    simp only [wrbLoop] at hok
    cases hok
    refine ⟨?_, ?_⟩
    · intro k b hk
      simp at hk
    · intro x _
      rfl
  | cons b bs ih =>
    intro i0 u0 m m' hok
    simp only [wrbLoop] at hok
    cases hc : used.contains b with
    | true =>
      rw [hc] at hok
      simp only [if_true] at hok
      split at hok
      · cases hok
      next v hv =>
        split at hok
        · cases hok
        next m1 hins =>
          obtain ⟨hw1, hwfr⟩ := insertValue_ok_at hins
          have hrec : wrbLoop task used retA usedA preA bs (i0 + 1) (u0 + 1) m1 = .ok m' := by
            cases task with
            | runProgram t => exact hok
            | cairoPie t =>
              cases hcheck : check_cairo_pie_builtin_usage m1 b i0 t.cairo_pie retA preA with
              | error e =>
                simp only [hcheck] at hok
                exact absurd hok (by simp)
              | ok u =>
                simp only [hcheck] at hok
                exact hok
          obtain ⟨ihchar, ihframe⟩ := ih (i0 + 1) (u0 + 1) m1 m' hrec
          have husedval : m (usedA.add u0) = some (.rel v) := getRelocatable_ok hv
          refine ⟨?_, ?_⟩
          · intro k b' hk
            cases k with
            | zero =>
              have hb : b = b' := by
                simpa using hk
              subst hb
              refine ⟨?_, ?_⟩
              · intro _
                have hm'0 : m' (retA.add (i0 + 0)) = m1 (retA.add (i0 + 0)) := by
                  refine ihframe _ ?_
                  intro k' _
                  exact Relocatable.add_ne_of_index_ne retA (by omega)
                rw [hm'0]
                have h0 : i0 + 0 = i0 := Nat.add_zero i0
                rw [h0, hw1, relPack_zero, Nat.add_zero, husedval]
                exact ⟨rfl, ⟨v, rfl⟩⟩
              · intro hcf
                rw [hc] at hcf
                cases hcf
            | succ k =>
              have hk' : bs.get? k = some b' := by
                simpa using hk
              obtain ⟨iht, ihf⟩ := ihchar k b' hk'
              have hiadd : i0 + (k + 1) = (i0 + 1) + k := by omega
              refine ⟨?_, ?_⟩
              · intro hct
                obtain ⟨he, hr, hrv⟩ := iht hct
                have hpk : relPack used (b :: bs) (k + 1) = relPack used bs k + 1 :=
                  relPack_cons_true bs k hc
                have huadd : u0 + relPack used (b :: bs) (k + 1) =
                    (u0 + 1) + relPack used bs k := by rw [hpk]; omega
                have hmm1 : m1 (usedA.add ((u0 + 1) + relPack used bs k)) =
                    m (usedA.add ((u0 + 1) + relPack used bs k)) := by
                  refine hwfr _ ?_
                  exact Relocatable.add_ne_of_ne _ _ husd
                rw [hiadd, huadd]
                rw [he, hmm1]
                rw [hmm1] at hrv
                exact ⟨rfl, ⟨hr, hrv⟩⟩
              · intro hcf
                obtain ⟨he, hv', hvv⟩ := ihf hcf
                have hmm1 : m1 (preA.add ((i0 + 1) + k)) =
                    m (preA.add ((i0 + 1) + k)) := by
                  refine hwfr _ ?_
                  exact Relocatable.add_ne_of_ne _ _ hpre
                rw [hiadd, he, hmm1]
                rw [hmm1] at hvv
                exact ⟨rfl, ⟨hv', hvv⟩⟩
          · intro x hx
            have h1 : m' x = m1 x := by
              refine ihframe x ?_
              intro k hkl
              have : i0 + 1 + k = i0 + (k + 1) := by omega
              rw [this]
              exact hx (k + 1) (by simpa using Nat.succ_lt_succ hkl)
            have h2 : m1 x = m x := by
              refine hwfr x ?_
              have : i0 = i0 + 0 := by omega
              rw [this]
              exact hx 0 (by simp)
            rw [h1, h2]
    | false =>
      rw [hc] at hok
      simp only [Bool.false_eq_true, if_false] at hok
      split at hok
      · cases hok
      next v hv =>
        split at hok
        · cases hok
        next m1 hins =>
          obtain ⟨hw1, hwfr⟩ := insertValue_ok_at hins
          obtain ⟨ihchar, ihframe⟩ := ih (i0 + 1) u0 m1 m' hok
          refine ⟨?_, ?_⟩
          · intro k b' hk
            cases k with
            | zero =>
              have hb : b = b' := by
                simpa using hk
              subst hb
              refine ⟨?_, ?_⟩
              · intro hct
                rw [hct] at hc
                cases hc
              · intro _
                have hm'0 : m' (retA.add (i0 + 0)) = m1 (retA.add (i0 + 0)) := by
                  refine ihframe _ ?_
                  intro k' _
                  exact Relocatable.add_ne_of_index_ne retA (by omega)
                rw [hm'0]
                have h0 : i0 + 0 = i0 := Nat.add_zero i0
                rw [h0, hw1, hv]
                exact ⟨rfl, ⟨v, rfl⟩⟩
            | succ k =>
              have hk' : bs.get? k = some b' := by
                simpa using hk
              obtain ⟨iht, ihf⟩ := ihchar k b' hk'
              have hiadd : i0 + (k + 1) = (i0 + 1) + k := by omega
              refine ⟨?_, ?_⟩
              · intro hct
                obtain ⟨he, hr, hrv⟩ := iht hct
                have hpk : relPack used (b :: bs) (k + 1) = relPack used bs k :=
                  relPack_cons_false bs k hc
                have hmm1 : m1 (usedA.add (u0 + relPack used bs k)) =
                    m (usedA.add (u0 + relPack used bs k)) := by
                  refine hwfr _ ?_
                  exact Relocatable.add_ne_of_ne _ _ husd
                rw [hiadd, hpk]
                rw [he, hmm1]
                rw [hmm1] at hrv
                exact ⟨rfl, ⟨hr, hrv⟩⟩
              · intro hcf
                obtain ⟨he, hv', hvv⟩ := ihf hcf
                have hmm1 : m1 (preA.add ((i0 + 1) + k)) =
                    m (preA.add ((i0 + 1) + k)) := by
                  refine hwfr _ ?_
                  exact Relocatable.add_ne_of_ne _ _ hpre
                rw [hiadd, he, hmm1]
                rw [hmm1] at hvv
                exact ⟨rfl, ⟨hv', hvv⟩⟩
          · intro x hx
            have h1 : m' x = m1 x := by
              refine ihframe x ?_
              intro k hkl
              have : i0 + 1 + k = i0 + (k + 1) := by omega
              rw [this]
              exact hx (k + 1) (by simpa using Nat.succ_lt_succ hkl)
            have h2 : m1 x = m x := by
              refine hwfr x ?_
              have : i0 = i0 + 0 := by omega
              rw [this]
              exact hx 0 (by simp)
            rw [h1, h2]

/-- Step equation of `wrbLoop` for a used builtin of a CairoPie task. -/
theorem wrbLoop_cons_used_pie (t : CairoPieTask) (used : List BuiltinName)
    (retA usedA preA : Relocatable) (b : BuiltinName) (bs : List BuiltinName)
    (i0 u0 : Nat) (m m1 : Mem) (v : Relocatable)
    (hc : used.contains b = true)
    (hg : getRelocatable m (usedA.add u0) = .ok v)
    (hins : insertValue m (retA.add i0) (.rel v) = .ok m1) :
    wrbLoop (.cairoPie t) used retA usedA preA (b :: bs) i0 u0 m =
      (match check_cairo_pie_builtin_usage m1 b i0 t.cairo_pie retA preA with
       | .error e => .error e
       | .ok _ => wrbLoop (.cairoPie t) used retA usedA preA bs (i0 + 1) (u0 + 1) m1) := by
  simp only [wrbLoop, hc, if_true, hg, hins]

/-- Step equation of `wrbLoop` for an unused builtin. -/
theorem wrbLoop_cons_unused (task : Task) (used : List BuiltinName)
    (retA usedA preA : Relocatable) (b : BuiltinName) (bs : List BuiltinName)
    (i0 u0 : Nat) (m m1 : Mem) (v : MaybeRelocatable)
    (hc : used.contains b = false)
    (hp : m (preA.add i0) = some v)
    (hins : insertValue m (retA.add i0) v = .ok m1) :
    wrbLoop task used retA usedA preA (b :: bs) i0 u0 m =
      wrbLoop task used retA usedA preA bs (i0 + 1) u0 m1 := by
  simp only [wrbLoop, hc, Bool.false_eq_true, if_false, hp, hins]

/-- Evaluation of `check_cairo_pie_builtin_usage` when both pointers are
readable relocatables in the same segment and the PIE records a size. -/
theorem check_cairo_pie_eval (m : Mem) (b : BuiltinName) (i : Nat) (pie : CairoPie)
    (retA preA : Relocatable) (rv pv : Relocatable) (s : Nat)
    (hr : m (retA.add i) = some (.rel rv))
    (hp : m (preA.add i) = some (.rel pv))
    (hseg : rv.segment_index = pv.segment_index)
    (hoff : pv.offset ≤ rv.offset)
    (hsz : pie.builtin_segment_size b = some s) :
    check_cairo_pie_builtin_usage m b i pie retA preA =
      (if s ≠ rv.offset - pv.offset then
        .error (.AssertionFailed "Builtin usage is inconsistent with the CairoPie.")
       else .ok ()) := by
  have hsub : relocatableSub rv pv = .ok (rv.offset - pv.offset) := by
    simp [relocatableSub, hseg, hoff]
  simp only [check_cairo_pie_builtin_usage, getRelocatable_of_eq hr,
    getRelocatable_of_eq hp, hsub, hsz]

/-- For a CairoPie task, `wrbLoop` succeeds when every used builtin's threaded
advance equals the usage size recorded in the PIE metadata, and raises
`AssertionFailed` when some used builtin's advance differs from it. -/
theorem wrbLoop_pie_spec (t : CairoPieTask) (used : List BuiltinName)
    (retA usedA preA : Relocatable)
    (hpre : preA.segment_index ≠ retA.segment_index)
    (husd : usedA.segment_index ≠ retA.segment_index) :
    ∀ (bs : List BuiltinName) (i0 u0 : Nat) (m : Mem)
      (r p : Nat → Relocatable) (sz : Nat → Nat),
      (∀ k, k < bs.length → m (retA.add (i0 + k)) = none) →
      (∀ k b, bs.get? k = some b → used.contains b = true →
         m (usedA.add (u0 + relPack used bs k)) = some (.rel (r k)) ∧
         m (preA.add (i0 + k)) = some (.rel (p k)) ∧
         (r k).segment_index = (p k).segment_index ∧
         (p k).offset ≤ (r k).offset ∧
         t.cairo_pie.builtin_segment_size b = some (sz k)) →
      (∀ k b, bs.get? k = some b → used.contains b = false →
         ∃ v, m (preA.add (i0 + k)) = some v) →
      ((∀ k b, bs.get? k = some b → used.contains b = true →
          sz k = (r k).offset - (p k).offset) →
        ∃ m', wrbLoop (.cairoPie t) used retA usedA preA bs i0 u0 m = .ok m') ∧
      ((∃ k b, bs.get? k = some b ∧ used.contains b = true ∧
          sz k ≠ (r k).offset - (p k).offset) →
        ∃ msg, wrbLoop (.cairoPie t) used retA usedA preA bs i0 u0 m
          = .error (.AssertionFailed msg)) := by
  intro bs
  induction bs with
  | nil =>
    intro i0 u0 m r p sz _ _ _
    refine ⟨fun _ => ⟨m, by simp only [wrbLoop]⟩, ?_⟩
    rintro ⟨k, b, hget, _, _⟩
    simp at hget
  | cons b bs ih =>
    intro i0 u0 m r p sz hfresh hru hrp
    have hfresh0 : m (retA.add i0) = none := by
      have h := hfresh 0 (by simp)
      simpa using h
    cases hc : used.contains b with
    | true =>
      have h0 := hru 0 b rfl hc
      simp only [relPack_zero, Nat.add_zero] at h0
      obtain ⟨hu0, hp0, hseg0, hoff0, hsz0⟩ := h0
      set m1 := m.set (retA.add i0) (MaybeRelocatable.rel (r 0)) with hm1def
      have hins : insertValue m (retA.add i0) (MaybeRelocatable.rel (r 0)) = .ok m1 :=
        insertValue_of_none _ hfresh0
      have hstep := wrbLoop_cons_used_pie t used retA usedA preA b bs i0 u0 m m1 (r 0)
        hc (getRelocatable_of_eq hu0) hins
      have hm1ret : m1 (retA.add i0) = some (.rel (r 0)) := Mem.set_self m _ _
      have hm1pre : ∀ w, m1 (preA.add w) = m (preA.add w) := fun w =>
        Mem.set_ne m _ _ (Relocatable.add_ne_of_ne _ _ hpre)
      have hm1used : ∀ w, m1 (usedA.add w) = m (usedA.add w) := fun w =>
        Mem.set_ne m _ _ (Relocatable.add_ne_of_ne _ _ husd)
      have hm1retk : ∀ w, w ≠ i0 → m1 (retA.add w) = m (retA.add w) := fun w hw =>
        Mem.set_ne m _ _ (Relocatable.add_ne_of_index_ne retA hw)
      have hcheckeval := check_cairo_pie_eval m1 b i0 t.cairo_pie retA preA (r 0) (p 0)
        (sz 0) hm1ret (by rw [hm1pre]; exact hp0) hseg0 hoff0 hsz0
      have hfresh' : ∀ k, k < bs.length → m1 (retA.add ((i0 + 1) + k)) = none := by
        intro k hk
        rw [hm1retk _ (by omega)]
        have h := hfresh (k + 1) (by simpa using Nat.succ_lt_succ hk)
        have heq : i0 + (k + 1) = (i0 + 1) + k := by omega
        rw [heq] at h
        exact h
      have hru' : ∀ k b', bs.get? k = some b' → used.contains b' = true →
          m1 (usedA.add ((u0 + 1) + relPack used bs k)) = some (.rel (r (k + 1))) ∧
          m1 (preA.add ((i0 + 1) + k)) = some (.rel (p (k + 1))) ∧
          (r (k + 1)).segment_index = (p (k + 1)).segment_index ∧
          (p (k + 1)).offset ≤ (r (k + 1)).offset ∧
          t.cairo_pie.builtin_segment_size b' = some (sz (k + 1)) := by
        intro k b' hget hcb
        have h := hru (k + 1) b' (by simpa using hget) hcb
        rw [relPack_cons_true bs k hc] at h
        have e1 : u0 + (relPack used bs k + 1) = (u0 + 1) + relPack used bs k := by omega
        have e2 : i0 + (k + 1) = (i0 + 1) + k := by omega
        rw [e1, e2] at h
        obtain ⟨h1, h2, h3, h4, h5⟩ := h
        exact ⟨by rw [hm1used]; exact h1, by rw [hm1pre]; exact h2, h3, h4, h5⟩
      have hrp' : ∀ k b', bs.get? k = some b' → used.contains b' = false →
          ∃ v, m1 (preA.add ((i0 + 1) + k)) = some v := by
        intro k b' hget hcb
        obtain ⟨v, hv⟩ := hrp (k + 1) b' (by simpa using hget) hcb
        have e2 : i0 + (k + 1) = (i0 + 1) + k := by omega
        rw [e2] at hv
        exact ⟨v, by rw [hm1pre]; exact hv⟩
      obtain ⟨ihok, iherr⟩ := ih (i0 + 1) (u0 + 1) m1 (fun k => r (k + 1))
        (fun k => p (k + 1)) (fun k => sz (k + 1)) hfresh' hru' hrp'
      constructor
      · intro hmatch
        have hd0 : sz 0 = (r 0).offset - (p 0).offset := hmatch 0 b rfl hc
        have hcheck : check_cairo_pie_builtin_usage m1 b i0 t.cairo_pie retA preA = .ok () := by
          rw [hcheckeval]
          simp [hd0]
        obtain ⟨m', hm'⟩ := ihok (fun k b' hget hcb =>
          hmatch (k + 1) b' (by simpa using hget) hcb)
        exact ⟨m', by rw [hstep, hcheck]; exact hm'⟩
      · rintro ⟨k, b', hget, hcb, hne⟩
        cases k with
        | zero =>
          have hb : b = b' := by simpa using hget
          subst hb
          have hcheck : check_cairo_pie_builtin_usage m1 b i0 t.cairo_pie retA preA =
              .error (.AssertionFailed "Builtin usage is inconsistent with the CairoPie.") := by
            rw [hcheckeval]
            simp [hne]
          exact ⟨"Builtin usage is inconsistent with the CairoPie.",
            by rw [hstep, hcheck]⟩
        | succ k =>
          by_cases hd0 : sz 0 = (r 0).offset - (p 0).offset
          · have hcheck : check_cairo_pie_builtin_usage m1 b i0 t.cairo_pie retA preA
                = .ok () := by
              rw [hcheckeval]
              simp [hd0]
            obtain ⟨msg, hmsg⟩ := iherr ⟨k, b', by simpa using hget, hcb, hne⟩
            exact ⟨msg, by rw [hstep, hcheck]; exact hmsg⟩
          · have hcheck : check_cairo_pie_builtin_usage m1 b i0 t.cairo_pie retA preA =
                .error (.AssertionFailed "Builtin usage is inconsistent with the CairoPie.") := by
              rw [hcheckeval]
              simp [hd0]
            exact ⟨"Builtin usage is inconsistent with the CairoPie.",
              by rw [hstep, hcheck]⟩
    | false =>
      obtain ⟨v0, hv0⟩ := hrp 0 b rfl hc
      rw [Nat.add_zero] at hv0
      set m1 := m.set (retA.add i0) v0 with hm1def
      have hins : insertValue m (retA.add i0) v0 = .ok m1 :=
        insertValue_of_none _ hfresh0
      have hstep := wrbLoop_cons_unused (.cairoPie t) used retA usedA preA b bs i0 u0 m m1 v0
        hc hv0 hins
      have hm1pre : ∀ w, m1 (preA.add w) = m (preA.add w) := fun w =>
        Mem.set_ne m _ _ (Relocatable.add_ne_of_ne _ _ hpre)
      have hm1used : ∀ w, m1 (usedA.add w) = m (usedA.add w) := fun w =>
        Mem.set_ne m _ _ (Relocatable.add_ne_of_ne _ _ husd)
      have hm1retk : ∀ w, w ≠ i0 → m1 (retA.add w) = m (retA.add w) := fun w hw =>
        Mem.set_ne m _ _ (Relocatable.add_ne_of_index_ne retA hw)
      have hfresh' : ∀ k, k < bs.length → m1 (retA.add ((i0 + 1) + k)) = none := by
        intro k hk
        rw [hm1retk _ (by omega)]
        have h := hfresh (k + 1) (by simpa using Nat.succ_lt_succ hk)
        have heq : i0 + (k + 1) = (i0 + 1) + k := by omega
        rw [heq] at h
        exact h
      have hru' : ∀ k b', bs.get? k = some b' → used.contains b' = true →
          m1 (usedA.add (u0 + relPack used bs k)) = some (.rel (r (k + 1))) ∧
          m1 (preA.add ((i0 + 1) + k)) = some (.rel (p (k + 1))) ∧
          (r (k + 1)).segment_index = (p (k + 1)).segment_index ∧
          (p (k + 1)).offset ≤ (r (k + 1)).offset ∧
          t.cairo_pie.builtin_segment_size b' = some (sz (k + 1)) := by
        intro k b' hget hcb
        have h := hru (k + 1) b' (by simpa using hget) hcb
        rw [relPack_cons_false bs k hc] at h
        have e2 : i0 + (k + 1) = (i0 + 1) + k := by omega
        rw [e2] at h
        obtain ⟨h1, h2, h3, h4, h5⟩ := h
        exact ⟨by rw [hm1used]; exact h1, by rw [hm1pre]; exact h2, h3, h4, h5⟩
      have hrp' : ∀ k b', bs.get? k = some b' → used.contains b' = false →
          ∃ v, m1 (preA.add ((i0 + 1) + k)) = some v := by
        intro k b' hget hcb
        obtain ⟨v, hv⟩ := hrp (k + 1) b' (by simpa using hget) hcb
        have e2 : i0 + (k + 1) = (i0 + 1) + k := by omega
        rw [e2] at hv
        exact ⟨v, by rw [hm1pre]; exact hv⟩
      obtain ⟨ihok, iherr⟩ := ih (i0 + 1) u0 m1 (fun k => r (k + 1))
        (fun k => p (k + 1)) (fun k => sz (k + 1)) hfresh' hru' hrp'
      constructor
      · intro hmatch
        obtain ⟨m', hm'⟩ := ihok (fun k b' hget hcb =>
          hmatch (k + 1) b' (by simpa using hget) hcb)
        exact ⟨m', by rw [hstep]; exact hm'⟩
      · rintro ⟨k, b', hget, hcb, hne⟩
        cases k with
        | zero =>
          have hb : b = b' := by simpa using hget
          subst hb
          rw [hc] at hcb
          cases hcb
        | succ k =>
          obtain ⟨msg, hmsg⟩ := iherr ⟨k, b', by simpa using hget, hcb, hne⟩
          exact ⟨msg, by rw [hstep]; exact hmsg⟩

/-- C2: for every task with declared builtin list `used` whose builtin
threading succeeds, every canonical-order builtin slot not in `used` receives
in the return record exactly the value read from the same slot of the
pre-execution record (which must hold a value), provided the return record
does not alias the pre-execution record or the used-pointer pack. -/
theorem claim_c2_unused_identity
    (task : Task) (used : List BuiltinName) (retA usedA preA : Relocatable)
    (m m' : Mem) (i : Nat) (b : BuiltinName)
    (hpre : preA.segment_index ≠ retA.segment_index)
    (husd : usedA.segment_index ≠ retA.segment_index)
    (hok : write_return_builtins m retA used usedA preA task = .ok m')
    (hb : ALL_BUILTINS.get? i = some b)
    (hc : used.contains b = false) :
    m' (retA.add i) = m (preA.add i) ∧ ∃ v, m (preA.add i) = some v := by
  obtain ⟨hchar, _⟩ :=
    wrbLoop_run task used retA usedA preA hpre husd ALL_BUILTINS 0 0 m m' hok
  have h := (hchar i b hb).2 hc
  simpa using h

/-- C3: for every task with declared builtin list `used` whose builtin
threading succeeds, the slot of the `i`-th canonical builtin that belongs to
`used` receives the entry of the densely packed used-pointer sequence at
offset `packIndex used i` — the number of used builtins among the earlier
canonical slots, so entries are consumed sequentially with no gaps — and that
entry holds a relocatable. -/
theorem claim_c3_packed_assignment
    (task : Task) (used : List BuiltinName) (retA usedA preA : Relocatable)
    (m m' : Mem) (i : Nat) (b : BuiltinName)
    (hpre : preA.segment_index ≠ retA.segment_index)
    (husd : usedA.segment_index ≠ retA.segment_index)
    (hok : write_return_builtins m retA used usedA preA task = .ok m')
    (hb : ALL_BUILTINS.get? i = some b)
    (hc : used.contains b = true) :
    m' (retA.add i) = m (usedA.add (packIndex used i)) ∧
    ∃ r, m (usedA.add (packIndex used i)) = some (.rel r) := by
  obtain ⟨hchar, _⟩ :=
    wrbLoop_run task used retA usedA preA hpre husd ALL_BUILTINS 0 0 m m' hok
  have h := (hchar i b hb).1 hc
  simpa [packIndex] using h

/-- C7: the canonical builtin order is exactly the 11-slot sequence output,
pedersen, range-check, ecdsa, bitwise, ec-op, keccak, poseidon,
range-check-96, add-mod, mul-mod, and on every successful run of
`write_return_builtins` the slot read (pre-execution) and written (return) for
the `i`-th capability of this sequence is slot `i` of the respective record. -/
theorem claim_c7_canonical_order :
    ALL_BUILTINS = [BuiltinName.output, BuiltinName.pedersen, BuiltinName.range_check,
      BuiltinName.ecdsa, BuiltinName.bitwise, BuiltinName.ec_op, BuiltinName.keccak,
      BuiltinName.poseidon, BuiltinName.range_check96, BuiltinName.add_mod,
      BuiltinName.mul_mod] ∧
    ∀ (task : Task) (used : List BuiltinName) (retA usedA preA : Relocatable)
      (m m' : Mem) (i : Nat) (b : BuiltinName),
      preA.segment_index ≠ retA.segment_index →
      usedA.segment_index ≠ retA.segment_index →
      write_return_builtins m retA used usedA preA task = .ok m' →
      ALL_BUILTINS.get? i = some b →
      m' (retA.add i) =
        (if used.contains b then m (usedA.add (packIndex used i))
         else m (preA.add i)) := by
  refine ⟨rfl, ?_⟩
  intro task used retA usedA preA m m' i b hpre husd hok hb
  obtain ⟨hchar, _⟩ :=
    wrbLoop_run task used retA usedA preA hpre husd ALL_BUILTINS 0 0 m m' hok
  cases hc : used.contains b with
  | true =>
    have h := ((hchar i b hb).1 hc).1
    simpa [packIndex] using h
  | false =>
    have h := ((hchar i b hb).2 hc).1
    simpa using h

/-- C1: for a CairoPie task, `write_return_builtins` succeeds (raising no
assertion) when for every used builtin the advance between the written return
pointer and the pre-execution pointer equals the usage size recorded in the
PIE's `builtin_segments` metadata, and raises `HintError.AssertionFailed` as
soon as some used builtin's advance differs from its recorded size. -/
theorem claim_c1_pie_usage_assertion (t : CairoPieTask) (used : List BuiltinName)
    (retA usedA preA : Relocatable) (m : Mem)
    (r p : Nat → Relocatable) (sz : Nat → Nat)
    (hpre : preA.segment_index ≠ retA.segment_index)
    (husd : usedA.segment_index ≠ retA.segment_index)
    (hfresh : ∀ k, k < ALL_BUILTINS.length → m (retA.add k) = none)
    (hcells : ∀ k, k < ALL_BUILTINS.length → ∀ b, ALL_BUILTINS.get? k = some b →
       used.contains b = true →
       m (usedA.add (packIndex used k)) = some (.rel (r k)) ∧
       m (preA.add k) = some (.rel (p k)))
    (hsizes : ∀ k, k < ALL_BUILTINS.length → ∀ b, ALL_BUILTINS.get? k = some b →
       used.contains b = true →
       (r k).segment_index = (p k).segment_index ∧
       (p k).offset ≤ (r k).offset ∧
       t.cairo_pie.builtin_segment_size b = some (sz k))
    (hunused : ∀ k, k < ALL_BUILTINS.length → ∀ b, ALL_BUILTINS.get? k = some b →
       used.contains b = false → (m (preA.add k)).isSome = true) :
    ((∀ k, k < ALL_BUILTINS.length → ∀ b, ALL_BUILTINS.get? k = some b →
        used.contains b = true → sz k = (r k).offset - (p k).offset) →
      ∃ m', write_return_builtins m retA used usedA preA (.cairoPie t) = .ok m') ∧
    ((∃ k b, ALL_BUILTINS.get? k = some b ∧ used.contains b = true ∧
        sz k ≠ (r k).offset - (p k).offset) →
      ∃ msg, write_return_builtins m retA used usedA preA (.cairoPie t)
        = .error (.AssertionFailed msg)) := by
  have hlen : ∀ (k : Nat) (b : BuiltinName), ALL_BUILTINS.get? k = some b →
      k < ALL_BUILTINS.length := by
    intro k b hget
    exact List.get?_eq_some.mp hget |>.1
  have h := wrbLoop_pie_spec t used retA usedA preA hpre husd ALL_BUILTINS 0 0 m r p sz
    (by intro k hk; simpa using hfresh k hk)
    (by
      intro k b hget hcb
      have h1 := hcells k (hlen k b hget) b hget hcb
      have h2 := hsizes k (hlen k b hget) b hget hcb
      refine ⟨?_, ?_, h2.1, h2.2.1, h2.2.2⟩
      · simpa [packIndex] using h1.1
      · simpa using h1.2)
    (by
      intro k b hget hcb
      have hh := hunused k (hlen k b hget) b hget hcb
      rw [Option.isSome_iff_exists] at hh
      obtain ⟨v, hv⟩ := hh
      exact ⟨v, by simpa using hv⟩)
  obtain ⟨hok, herr⟩ := h
  constructor
  · intro hmatch
    exact hok (fun k b hget hcb => hmatch k (hlen k b hget) b hget hcb)
  · exact herr

/-- Concrete pre-execution record for witnesses: slot `j` of segment 1 holds
the pointer `(2, j + 1)`. -/
def wPreCells : List (Relocatable × MaybeRelocatable) :=
  (List.range 11).map (fun j => (⟨1, j⟩, MaybeRelocatable.rel ⟨2, j + 1⟩))

/-- Concrete packed used-pointer sequence for witnesses: two entries. -/
def wUsedCells : List (Relocatable × MaybeRelocatable) :=
  [(⟨3, 0⟩, .rel ⟨2, 30⟩), (⟨3, 1⟩, .rel ⟨2, 50⟩)]

/-- Concrete witness memory: pre-execution record in segment 1, used-pointer
pack in segment 3, return record (segment 4) unset. -/
def wMem : Mem := memOf (wPreCells ++ wUsedCells)

/-- Concrete declared builtin list for witnesses (the spec scenario). -/
def wUsed : List BuiltinName := [.range_check, .bitwise]

/-- Concrete freshly-run task for witnesses. -/
def wRunTask : Task := .runProgram ⟨⟨[1, 2], wUsed, some 0⟩, [], false⟩

/-- Extracting one cell of the memory produced by a successful state-returning
hint. -/
theorem map_cell_of_ok {res : Except HintError Mem} {m' : Mem} {a : Relocatable}
    {v : Option MaybeRelocatable} (hok : res = .ok m') (hc : m' a = v) :
    res.map (fun mm => mm a) = .ok v := by
  subst hok
  subst hc
  rfl

/-- C2 witness: threading `wUsed` leaves the (unused) output slot 0 equal to
its pre-execution value. -/
theorem claim_c2_witness :
    (write_return_builtins wMem ⟨4, 0⟩ wUsed ⟨3, 0⟩ ⟨1, 0⟩ wRunTask).map
      (fun mm => mm (Relocatable.add ⟨4, 0⟩ 0)) =
    .ok (wMem (Relocatable.add ⟨1, 0⟩ 0)) := by
  obtain ⟨m', hok⟩ :
      ∃ mm, write_return_builtins wMem ⟨4, 0⟩ wUsed ⟨3, 0⟩ ⟨1, 0⟩ wRunTask = .ok mm :=
    ⟨_, rfl⟩
  have h := (claim_c2_unused_identity wRunTask wUsed ⟨4, 0⟩ ⟨3, 0⟩ ⟨1, 0⟩ wMem m'
    0 BuiltinName.output (by decide) (by decide) hok rfl (by decide)).1
  exact map_cell_of_ok hok h

/-- C3 witness: in the spec scenario (`range-check` and `bitwise` declared,
pack `[u0, u1]`), the range-check slot (index 2) receives the first packed
entry `u0 = (2, 30)`. -/
theorem claim_c3_witness :
    (write_return_builtins wMem ⟨4, 0⟩ wUsed ⟨3, 0⟩ ⟨1, 0⟩ wRunTask).map
      (fun mm => mm (Relocatable.add ⟨4, 0⟩ 2)) =
    .ok (some (.rel ⟨2, 30⟩)) := by
  obtain ⟨m', hok⟩ :
      ∃ mm, write_return_builtins wMem ⟨4, 0⟩ wUsed ⟨3, 0⟩ ⟨1, 0⟩ wRunTask = .ok mm :=
    ⟨_, rfl⟩
  have h := (claim_c3_packed_assignment wRunTask wUsed ⟨4, 0⟩ ⟨3, 0⟩ ⟨1, 0⟩ wMem m'
    2 BuiltinName.range_check (by decide) (by decide) hok rfl (by decide)).1
  have hcell : wMem (Relocatable.add ⟨3, 0⟩ (packIndex wUsed 2)) = some (.rel ⟨2, 30⟩) := by
    decide
  exact map_cell_of_ok hok (h.trans hcell)

/-- C7 witness: the bitwise slot (index 4 of the canonical order) of a
successful run receives the packed entry at offset `packIndex wUsed 4 = 1`. -/
theorem claim_c7_witness :
    (write_return_builtins wMem ⟨4, 0⟩ wUsed ⟨3, 0⟩ ⟨1, 0⟩ wRunTask).map
      (fun mm => mm (Relocatable.add ⟨4, 0⟩ 4)) =
    .ok (some (.rel ⟨2, 50⟩)) := by
  obtain ⟨m', hok⟩ :
      ∃ mm, write_return_builtins wMem ⟨4, 0⟩ wUsed ⟨3, 0⟩ ⟨1, 0⟩ wRunTask = .ok mm :=
    ⟨_, rfl⟩
  have h := claim_c7_canonical_order.2 wRunTask wUsed ⟨4, 0⟩ ⟨3, 0⟩ ⟨1, 0⟩ wMem m'
    4 BuiltinName.bitwise (by decide) (by decide) hok rfl
  have hcell : (if wUsed.contains BuiltinName.bitwise then
      wMem (Relocatable.add ⟨3, 0⟩ (packIndex wUsed 4))
    else wMem (Relocatable.add ⟨1, 0⟩ 4)) = some (.rel ⟨2, 50⟩) := by
    decide
  exact map_cell_of_ok hok (h.trans hcell)

/-- Concrete CairoPie task for the C1 witness: usage sizes matching the deltas
implied by `wMem` (range-check: 30 − 3 = 27, bitwise: 50 − 5 = 45). -/
def wPieTask : CairoPieTask :=
  ⟨⟨⟨[1, 2], wUsed, 0⟩, [(.range_check, 27), (.bitwise, 45)]⟩, false⟩

/-- Return-pointer readings of the used slots in the C1 witness. -/
def wR : Nat → Relocatable := fun k =>
  if k = 2 then ⟨2, 30⟩ else if k = 4 then ⟨2, 50⟩ else ⟨0, 0⟩

/-- Pre-execution pointer readings in the C1 witness. -/
def wP : Nat → Relocatable := fun k => ⟨2, k + 1⟩

/-- Recorded usage sizes in the C1 witness. -/
def wSz : Nat → Nat := fun k => if k = 2 then 27 else if k = 4 then 45 else 0

/-- C1 witness: with the recorded sizes equal to the threaded advances, the
builtin threading of the CairoPie task succeeds without an assertion. -/
theorem claim_c1_witness :
    (write_return_builtins wMem ⟨4, 0⟩ wUsed ⟨3, 0⟩ ⟨1, 0⟩ (.cairoPie wPieTask)).isOk
      = true := by
  obtain ⟨m', hok⟩ := (claim_c1_pie_usage_assertion wPieTask wUsed ⟨4, 0⟩ ⟨3, 0⟩ ⟨1, 0⟩
    wMem wR wP wSz (by decide) (by decide) (by decide) (by decide) (by decide)
    (by decide)).1 (by decide)
  rw [hok]
  rfl

/-- Extracting a projection of the value carried by a successful result. -/
theorem map_of_ok {α β : Type} {res : Except HintError α} {v : α} {f : α → β} {w : β}
    (hok : res = .ok v) (hf : f v = w) : res.map f = .ok w := by
  subst hok
  subst hf
  rfl

/-- C4: `validate_hash` raises `HintError.AssertionFailed` exactly when the
felt committed at `output_ptr + 1` differs from the hash chain computed over
the task's stripped program, and returns Ok with an empty hint extension when
the two agree. -/
theorem claim_c4_hash_check (hash_chain : StrippedProgram → Nat → Felt)
    (fs : FileSystem) (spec : TaskSpec) (m : Mem) (output_ptr : Relocatable)
    (task : Task) (program : StrippedProgram) (h : Felt)
    (htask : get_task_from_exec_scopes fs spec = .ok task)
    (hprog : get_stripped_program_from_task task = .ok program)
    (hmem : m (output_ptr.add 1) = some (.int h)) :
    ((∃ s, validate_hash hash_chain fs spec m output_ptr = .error (.AssertionFailed s)) ↔
      h ≠ hash_chain program 0) ∧
    (h = hash_chain program 0 →
      validate_hash hash_chain fs spec m output_ptr = .ok []) := by
  have hint : getInteger m (output_ptr.add 1) = .ok h := by
    unfold getInteger
    rw [hmem]
  have hval : validate_hash hash_chain fs spec m output_ptr =
      (if h ≠ hash_chain program 0 then
        .error (.AssertionFailed "Computed hash does not match input")
       else .ok []) := by
    simp only [validate_hash, htask, hprog, hint]
  constructor
  · constructor
    · rintro ⟨s, hs⟩
      intro heq
      rw [hval] at hs
      simp [heq] at hs
    · intro hne
      refine ⟨"Computed hash does not match input", ?_⟩
      rw [hval]
      simp [hne]
  · intro heq
    rw [hval]
    simp [heq]

/-- Concrete file system for the hash witnesses (no file is ever read: the
task is in-memory). -/
def c4Fs : FileSystem := ⟨fun _ => .error "no file", fun _ => .error "no file"⟩

/-- Concrete program for the hash witnesses. -/
def c4Prog : Program := ⟨[1, 2], [], some 0⟩

/-- Concrete task spec for the hash witnesses. -/
def c4Spec : TaskSpec := .runProgram ⟨c4Prog, [], false⟩

/-- Concrete memory for the C4 witness: the committed hash at `(0,0) + 1`. -/
def c4Mem : Mem := memOf [(⟨0, 1⟩, .int 7)]

/-- C4 witness: with the committed felt equal to the program's hash chain, the
hint returns Ok with the empty extension. -/
theorem claim_c4_witness :
    validate_hash (fun _ _ => 7) c4Fs c4Spec c4Mem ⟨0, 0⟩ = .ok [] :=
  (claim_c4_hash_check (fun _ _ => 7) c4Fs c4Spec c4Mem ⟨0, 0⟩
    (.runProgram ⟨c4Prog, [], false⟩) ⟨[1, 2], [], 0⟩ 7 rfl rfl (by decide)).2 rfl

/-- C5 (code bug): the hash computed by `validate_hash` cannot depend on the
task's `use_poseidon` flag — the implementation calls
`compute_program_hash_chain(&program, 0)` with a hard-coded `0` and never
reads the flag, so two tasks differing only in `use_poseidon` validate
identically, contradicting the documented hint semantics
(`use_poseidon=bool(ids.use_poseidon)`). -/
theorem claim_c5_flag_ignored (hash_chain : StrippedProgram → Nat → Felt)
    (fs : FileSystem) (m : Mem) (output_ptr : Relocatable)
    (program : Program) (inp : ProgramInput) :
    validate_hash hash_chain fs (.runProgram ⟨program, inp, true⟩) m output_ptr =
    validate_hash hash_chain fs (.runProgram ⟨program, inp, false⟩) m output_ptr := rfl

/-- Concrete file system for the C6 scenario: every PIE read fails. -/
def c6Fs : FileSystem := ⟨fun _ => .error "io", fun _ => .error "unreadable PIE"⟩

/-- Concrete simple-bootloader input for the C6 scenario: one lazy PIE task. -/
def c6Input : SimpleBootloaderInput := ⟨none, false, [.cairoPiePath ⟨0, false⟩]⟩

/-- C6 counterexample: with one remaining task whose `load_task` fails,
`set_ap_to_zero_or_one` does not return an error — it succeeds and writes 0,
so not every hint propagates a task-load failure. -/
theorem claim_c6_counterexample :
    set_ap_to_zero_or_one c6Fs c6Input 1 = .ok 0 := rfl

/-- C6 (amended): when resolving the current task fails, `set_current_task`
propagates the failure as a `CustomHint "Task not found"` error and
`get_task_from_exec_scopes` (used by the execute-task hints) propagates it as
a `CustomHint` error, but `set_ap_to_zero_or_one` substitutes
`use_poseidon = false` and returns Ok, writing 0 instead of erroring. -/
theorem claim_c6_load_failure_amended (fs : FileSystem)
    (input : SimpleBootloaderInput) (n_felt : Felt) (n : Nat) (spec : TaskSpec)
    (e : String)
    (hn : feltToUsize n_felt = .ok n)
    (hle : n ≤ input.tasks.length)
    (hget : input.tasks.get? (input.tasks.length - n) = some spec)
    (hload : spec.load_task fs = .error e) :
    set_current_task fs input n_felt = .error (.CustomHint "Task not found") ∧
    set_ap_to_zero_or_one fs input n_felt = .ok 0 ∧
    get_task_from_exec_scopes fs spec = .error (.CustomHint e) := by
  refine ⟨?_, ?_, ?_⟩
  · simp only [set_current_task, hn]
    rw [if_pos hle]
    simp only [hget, hload]
  · simp only [set_ap_to_zero_or_one, hn]
    rw [if_pos hle]
    simp only [hget, hload]
    rfl
  · simp only [get_task_from_exec_scopes, hload]

/-- C6 witness: the amended behavior at the concrete failing scenario. -/
theorem claim_c6_witness :
    set_current_task c6Fs c6Input 1 = .error (.CustomHint "Task not found") ∧
    set_ap_to_zero_or_one c6Fs c6Input 1 = .ok 0 ∧
    get_task_from_exec_scopes c6Fs (.cairoPiePath ⟨0, false⟩) =
      .error (.CustomHint "unreadable PIE") :=
  claim_c6_load_failure_amended c6Fs c6Input 1 1 (.cairoPiePath ⟨0, false⟩)
    "unreadable PIE" rfl (by decide) rfl rfl

/-- C8: on success, `load_program_hint` records a code address immediately
after the header — `program_header_ptr + 4` when the program declares zero
builtins, `program_header_ptr + (4 + n_builtins)` in general — and finalizes
the program-data segment to the total number of words written, header plus
code. -/
theorem claim_c8_load_program (fs : FileSystem) (program_data_base : Relocatable)
    (spec : TaskSpec) (program_header_ptr : Relocatable)
    (task : Task) (program : StrippedProgram) (res : Relocatable × Int × Nat)
    (htask : get_task_from_exec_scopes fs spec = .ok task)
    (hprog : get_stripped_program_from_task task = .ok program)
    (hok : load_program_hint fs program_data_base spec program_header_ptr = .ok res) :
    (program.builtins = [] →
      res.1 = program_header_ptr.add 4 ∧ res.2.2 = 4 + program.data.length) ∧
    res.1 = program_header_ptr.add (4 + program.builtins.length) ∧
    res.2.1 = program_data_base.segment_index ∧
    res.2.2 = (4 + program.builtins.length) + program.data.length := by
  have hval : load_program_hint fs program_data_base spec program_header_ptr =
      .ok (program_header_ptr.add (4 + program.builtins.length),
           program_data_base.segment_index,
           (4 + program.builtins.length) + program.data.length) := by
    simp only [load_program_hint, htask, hprog, ProgramLoader.load_program]
  rw [hval] at hok
  cases hok
  refine ⟨?_, rfl, rfl, rfl⟩
  intro hb
  rw [hb]
  exact ⟨rfl, rfl⟩

/-- Concrete task spec for the C8 witness: a 2-word, zero-builtin program. -/
def c8Spec : TaskSpec := .runProgram ⟨⟨[1, 2], [], some 0⟩, [], false⟩

/-- C8 witness: loading the 2-instruction, zero-builtin program at header
address `(1, 0)` records code address `(1, 0) + 4` and finalizes the
program-data segment (here segment 2) to size `4 + 2`. -/
theorem claim_c8_witness :
    load_program_hint c4Fs ⟨2, 0⟩ c8Spec ⟨1, 0⟩ =
      .ok (Relocatable.add ⟨1, 0⟩ 4, (2 : Int), 4 + 2) := by
  obtain ⟨res, hok⟩ :
      ∃ r, load_program_hint c4Fs ⟨2, 0⟩ c8Spec ⟨1, 0⟩ = .ok r := ⟨_, rfl⟩
  obtain ⟨hzero, _, hseg, hsize⟩ := claim_c8_load_program c4Fs ⟨2, 0⟩ c8Spec ⟨1, 0⟩
    (.runProgram ⟨⟨[1, 2], [], some 0⟩, [], false⟩) ⟨[1, 2], [], 0⟩ res rfl rfl hok
  obtain ⟨hcode, hsz⟩ := hzero rfl
  rw [hok]
  have : res = (Relocatable.add ⟨1, 0⟩ 4, (2 : Int), 4 + 2) := by
    obtain ⟨r1, r2, r3⟩ := res
    simp only at hcode hseg hsz
    rw [hcode, hseg, hsz]
    rfl
  rw [this]

/-- Inversion of a successful relocatable subtraction. -/
theorem relocatableSub_ok_inv {a b : Relocatable} {n : Nat}
    (h : relocatableSub a b = .ok n) :
    a.segment_index = b.segment_index ∧ b.offset ≤ a.offset ∧
      n = a.offset - b.offset := by
  unfold relocatableSub at h
  split at h
  · split at h
    · cases h
      exact ⟨by assumption, by assumption, rfl⟩
    · cases h
  · cases h

/-- The page sizes of a computed fact topology always sum to the output size
it was computed from. -/
theorem get_task_fact_topology_sum (output_size : Nat) (task : Task)
    (st : OutputBuiltinState) (ft : FactTopology)
    (h : get_task_fact_topology output_size task st = .ok ft) :
    ft.page_sizes.sum = output_size := by
  cases task with
  | cairoPie t =>
    simp only [get_task_fact_topology] at h
    cases h
    simp
  | runProgram t =>
    simp only [get_task_fact_topology] at h
    split at h
    · cases h
      simp only [List.sum_cons]
      omega
    · cases h

/-- Single-call specification of `append_fact_topologies`: a successful call
appends exactly one entry, the topology computed from that call's own inputs,
at the end of the list, leaving the earlier entries untouched; its page sizes
sum to the output size read as `output_end - output_start`. -/
theorem append_single_spec (fs : FileSystem) (c : AppendCall)
    (fts res : List FactTopology)
    (hok : append_fact_topologies fs c.spec c.output_state c.m c.preA c.retA fts
      = .ok res) :
    ∃ ft, call_topology fs c = .ok ft ∧ res = fts ++ [ft] ∧
      res.length = fts.length + 1 ∧
      (∀ i, i < fts.length → res.get? i = fts.get? i) ∧
      ∃ s t, getRelocatable c.m c.preA = .ok s ∧ getRelocatable c.m c.retA = .ok t ∧
        s.segment_index = t.segment_index ∧ s.offset ≤ t.offset ∧
        ft.page_sizes.sum = t.offset - s.offset := by
  unfold append_fact_topologies at hok
  split at hok
  · cases hok
  next task heq1 =>
    split at hok
    · cases hok
    next s heq2 =>
      split at hok
      · cases hok
      next t heq3 =>
        split at hok
        · cases hok
        next os heq4 =>
          split at hok
          · cases hok
          next ft heq5 =>
            cases hok
            have hct : call_topology fs c = .ok ft := by
              simp only [call_topology, heq1, heq2, heq3, heq4, heq5]
            obtain ⟨hseg, hle, hos⟩ := relocatableSub_ok_inv heq4
            refine ⟨ft, hct, rfl, by simp, ?_, s, t, heq2, heq3, hseg.symm, hle, ?_⟩
            · intro i hi
              exact List.get?_append hi
            · rw [get_task_fact_topology_sum os task c.output_state ft heq5, hos]

/-- Iterated `append_fact_topologies` specification: the resulting list grows
by one entry per successful call, in call order. -/
theorem run_append_spec (fs : FileSystem) :
    ∀ (calls : List AppendCall) (fts res : List FactTopology),
      run_append_calls fs calls fts = .ok res →
      res.length = fts.length + calls.length ∧
      (∀ i, i < fts.length → res.get? i = fts.get? i) ∧
      (∀ i c, calls.get? i = some c → ∃ ft, call_topology fs c = .ok ft ∧
        res.get? (fts.length + i) = some ft) := by
  intro calls
  induction calls with
  | nil =>
    intro fts res hok
    simp only [run_append_calls] at hok
    cases hok
    refine ⟨by simp, fun i _ => rfl, ?_⟩
    intro i c hget
    simp at hget
  | cons c cs ih =>
    intro fts res hok
    simp only [run_append_calls] at hok
    split at hok
    · cases hok
    next fts1 happ =>
      obtain ⟨hlen, hpre, hcalls⟩ := ih fts1 res hok
      obtain ⟨ft0, hct0, hfts1, hlen1, _, _⟩ := append_single_spec fs c fts fts1 happ
      subst hfts1
      refine ⟨?_, ?_, ?_⟩
      · rw [hlen]
        simp
        omega
      · intro i hi
        rw [hpre i (by simp; omega)]
        exact List.get?_append hi
      · intro i c' hget
        cases i with
        | zero =>
          have hc : c = c' := by simpa using hget
          subst hc
          refine ⟨ft0, hct0, ?_⟩
          rw [Nat.add_zero]
          rw [hpre fts.length (by simp)]
          exact List.get?_concat_length fts ft0
        | succ i =>
          obtain ⟨ft, hct, hres⟩ := hcalls i c' (by simpa using hget)
          refine ⟨ft, hct, ?_⟩
          have heq : (fts ++ [ft0]).length + i = fts.length + (i + 1) := by
            simp
            omega
          rw [← heq]
          exact hres

/-- C9: every successful `append_fact_topologies` call extends the run-wide
fact-topology list by exactly one entry, placed at the end, with all
previously appended entries unchanged and in order, the new entry's recorded
output size (the sum of its page sizes) equal to `output_end - output_start`
read for that call; and after N successful calls starting from the empty list
the list has length N with the i-th entry computed from the i-th call. -/
theorem claim_c9_fact_topology_append (fs : FileSystem) :
    (∀ (c : AppendCall) (fts res : List FactTopology),
      append_fact_topologies fs c.spec c.output_state c.m c.preA c.retA fts = .ok res →
      ∃ ft, res = fts ++ [ft] ∧ res.length = fts.length + 1 ∧
        (∀ i, i < fts.length → res.get? i = fts.get? i) ∧
        ∃ s t, getRelocatable c.m c.preA = .ok s ∧ getRelocatable c.m c.retA = .ok t ∧
          ft.page_sizes.sum = t.offset - s.offset) ∧
    (∀ (calls : List AppendCall) (res : List FactTopology),
      run_append_calls fs calls [] = .ok res →
      res.length = calls.length ∧
      (∀ i c, calls.get? i = some c → ∃ ft, call_topology fs c = .ok ft ∧
        res.get? i = some ft)) := by
  constructor
  · intro c fts res hok
    obtain ⟨ft, _, h2, h3, h4, s, t, hs, ht, _, _, hsum⟩ :=
      append_single_spec fs c fts res hok
    exact ⟨ft, h2, h3, h4, s, t, hs, ht, hsum⟩
  · intro calls res hok
    obtain ⟨hlen, _, hcalls⟩ := run_append_spec fs calls [] res hok
    refine ⟨by simpa using hlen, ?_⟩
    intro i c hget
    simpa using hcalls i c hget

/-- Concrete memory for the C9 witness: output pointers `(8, 0)` before and
`(8, 10)` after, so the output size is 10. -/
def c9Mem : Mem := memOf [(⟨5, 0⟩, .rel ⟨8, 0⟩), (⟨5, 1⟩, .rel ⟨8, 10⟩)]

/-- Concrete call for the C9 witness. -/
def c9Call : AppendCall := ⟨c4Spec, ⟨[], []⟩, c9Mem, ⟨5, 0⟩, ⟨5, 1⟩⟩

/-- C9 witness: one successful append to the empty list yields a singleton. -/
theorem claim_c9_witness :
    (append_fact_topologies c4Fs c9Call.spec c9Call.output_state c9Call.m
      c9Call.preA c9Call.retA []).map List.length = .ok 1 := by
  obtain ⟨res, hok⟩ : ∃ r, append_fact_topologies c4Fs c9Call.spec c9Call.output_state
      c9Call.m c9Call.preA c9Call.retA [] = .ok r := ⟨_, rfl⟩
  obtain ⟨ft, _, hlen, _, _⟩ := (claim_c9_fact_topology_append c4Fs).1 c9Call [] res hok
  exact map_of_ok hok (by rw [hlen]; rfl)

/-- Specification of the program-loading phase of `make_bootloader_tasks`:
given as many inputs as paths, on success it yields one `RunProgram` task per
path in input order, paired index-wise with its input and with
`use_poseidon = false`, and any failing file makes the whole phase fail. -/
theorem load_program_tasks_spec (fs : FileSystem) :
    ∀ (ps : List Nat) (inps : List ProgramInput), ps.length = inps.length →
      (∀ ts, load_program_tasks fs ps inps = .ok ts →
        ts.length = ps.length ∧
        ∀ i pth inp, ps.get? i = some pth → inps.get? i = some inp →
          ∃ prog, fs.program_file pth = .ok prog ∧
            ts.get? i = some (.runProgram ⟨prog, inp, false⟩)) ∧
      ((∃ i pth, ps.get? i = some pth ∧ ∃ e, fs.program_file pth = .error e) →
        ∃ e, load_program_tasks fs ps inps = .error e) := by
  intro ps
  induction ps with
  | nil =>
    intro inps hlen
    constructor
    · intro ts hok
      simp only [load_program_tasks] at hok
      cases hok
      refine ⟨rfl, ?_⟩
      intro i pth inp hgp _
      simp at hgp
    · rintro ⟨i, pth, hget, _⟩
      simp at hget
  | cons pth ps ih =>
    intro inps hlen
    cases inps with
    | nil => simp at hlen
    | cons inp inps =>
      have hlen' : ps.length = inps.length := by simpa using hlen
      obtain ⟨ihok, iherr⟩ := ih inps hlen'
      constructor
      · intro ts hok
        simp only [load_program_tasks] at hok
        split at hok
        · cases hok
        next prog hprog =>
          split at hok
          · cases hok
          next ts' hts' =>
            cases hok
            obtain ⟨hlength, hchar⟩ := ihok ts' hts'
            refine ⟨by simp [hlength], ?_⟩
            intro i pth' inp' hgetp hgeti
            cases i with
            | zero =>
              have h1 : pth = pth' := by simpa using hgetp
              have h2 : inp = inp' := by simpa using hgeti
              subst h1
              subst h2
              exact ⟨prog, hprog, rfl⟩
            | succ i =>
              obtain ⟨prog', hp, ht⟩ :=
                hchar i pth' inp' (by simpa using hgetp) (by simpa using hgeti)
              exact ⟨prog', hp, by simpa using ht⟩
      · rintro ⟨i, pth', hget, e, herr⟩
        cases i with
        | zero =>
          have h1 : pth = pth' := by simpa using hget
          subst h1
          exact ⟨.program e, by simp only [load_program_tasks, herr]⟩
        | succ i =>
          cases hh : fs.program_file pth with
          | error e0 => exact ⟨.program e0, by simp only [load_program_tasks, hh]⟩
          | ok prog =>
            obtain ⟨e', he'⟩ := iherr ⟨i, pth', by simpa using hget, e, herr⟩
            exact ⟨e', by simp only [load_program_tasks, hh, he']⟩

/-- Specification of the PIE-loading phase of `make_bootloader_tasks`. -/
theorem load_pie_tasks_spec (fs : FileSystem) :
    ∀ (ps : List PiePath),
      (∀ ts, load_pie_tasks fs ps = .ok ts →
        ts.length = ps.length ∧
        ∀ i pth, ps.get? i = some pth →
          ∃ pie, fs.pie_file pth = .ok pie ∧
            ts.get? i = some (.cairoPieTask ⟨pie, false⟩)) ∧
      ((∃ i pth, ps.get? i = some pth ∧ ∃ e, fs.pie_file pth = .error e) →
        ∃ e, load_pie_tasks fs ps = .error e) := by
  intro ps
  induction ps with
  | nil =>
    constructor
    · intro ts hok
      simp only [load_pie_tasks] at hok
      cases hok
      refine ⟨rfl, ?_⟩
      intro i pth hgp
      simp at hgp
    · rintro ⟨i, pth, hget, _⟩
      simp at hget
  | cons pth ps ih =>
    obtain ⟨ihok, iherr⟩ := ih
    constructor
    · intro ts hok
      simp only [load_pie_tasks] at hok
      split at hok
      · cases hok
      next pie hpie =>
        split at hok
        · cases hok
        next ts' hts' =>
          cases hok
          obtain ⟨hlength, hchar⟩ := ihok ts' hts'
          refine ⟨by simp [hlength], ?_⟩
          intro i pth' hgetp
          cases i with
          | zero =>
            have h1 : pth = pth' := by simpa using hgetp
            subst h1
            exact ⟨pie, hpie, rfl⟩
          | succ i =>
            obtain ⟨pie', hp, ht⟩ := hchar i pth' (by simpa using hgetp)
            exact ⟨pie', hp, by simpa using ht⟩
    · rintro ⟨i, pth', hget, e, herr⟩
      cases i with
      | zero =>
        have h1 : pth = pth' := by simpa using hget
        subst h1
        exact ⟨.pie e, by simp only [load_pie_tasks, herr]⟩
      | succ i =>
        cases hh : fs.pie_file pth with
        | error e0 => exact ⟨.pie e0, by simp only [load_pie_tasks, hh]⟩
        | ok pie =>
          obtain ⟨e', he'⟩ := iherr ⟨i, pth', by simpa using hget, e, herr⟩
          exact ⟨e', by simp only [load_pie_tasks, hh, he']⟩

/-- C10: with program paths and inputs given in equal number, a successful
`make_bootloader_tasks` call returns one `RunProgram` task per program path
in input order (paired index-wise with its input), followed by one
`CairoPieTask` per PIE path in input order, all with `use_poseidon = false`;
and if reading or parsing any listed file fails, the call returns an error
instead of a task list. -/
theorem claim_c10_make_bootloader_tasks (fs : FileSystem) (ps : List Nat)
    (inps : List ProgramInput) (pies : List PiePath)
    (hlen : ps.length = inps.length) :
    (∀ ts, make_bootloader_tasks fs (some ps) (some inps) (some pies) = .ok ts →
      ts.length = ps.length + pies.length ∧
      (∀ i pth inp, ps.get? i = some pth → inps.get? i = some inp →
        ∃ prog, fs.program_file pth = .ok prog ∧
          ts.get? i = some (.runProgram ⟨prog, inp, false⟩)) ∧
      (∀ i pth, pies.get? i = some pth →
        ∃ pie, fs.pie_file pth = .ok pie ∧
          ts.get? (ps.length + i) = some (.cairoPieTask ⟨pie, false⟩))) ∧
    (((∃ i pth, ps.get? i = some pth ∧ ∃ e, fs.program_file pth = .error e) ∨
      (∃ i pth, pies.get? i = some pth ∧ ∃ e, fs.pie_file pth = .error e)) →
      ∃ e, make_bootloader_tasks fs (some ps) (some inps) (some pies) = .err e) := by
  obtain ⟨hpok, hperr⟩ := load_program_tasks_spec fs ps inps hlen
  obtain ⟨hqok, hqerr⟩ := load_pie_tasks_spec fs pies
  constructor
  · intro ts hok
    simp only [make_bootloader_tasks] at hok
    rw [if_pos hlen] at hok
    split at hok
    · cases hok
    next ts1 hts1 =>
      simp only [make_pie_phase] at hok
      split at hok
      · cases hok
      next ts2 hts2 =>
        cases hok
        obtain ⟨hlen1, hchar1⟩ := hpok ts1 hts1
        obtain ⟨hlen2, hchar2⟩ := hqok ts2 hts2
        refine ⟨by simp [hlen1, hlen2], ?_, ?_⟩
        · intro i pth inp hgp hgi
          obtain ⟨prog, hp, ht⟩ := hchar1 i pth inp hgp hgi
          refine ⟨prog, hp, ?_⟩
          rw [← ht]
          apply List.get?_append
          rw [hlen1]
          exact (List.get?_eq_some.mp hgp).1
        · intro i pth hgq
          obtain ⟨pie, hq, ht⟩ := hchar2 i pth hgq
          refine ⟨pie, hq, ?_⟩
          rw [← hlen1, List.get?_append_right (by omega)]
          simpa using ht
  · intro hfail
    cases hres : load_program_tasks fs ps inps with
    | error e =>
      refine ⟨e, ?_⟩
      simp only [make_bootloader_tasks]
      rw [if_pos hlen]
      simp only [hres]
    | ok ts1 =>
      cases hfail with
      | inl hprog =>
        obtain ⟨e, he⟩ := hperr hprog
        rw [hres] at he
        cases he
      | inr hpie =>
        obtain ⟨e, he⟩ := hqerr hpie
        refine ⟨e, ?_⟩
        simp only [make_bootloader_tasks]
        rw [if_pos hlen]
        simp only [hres, make_pie_phase, he]

/-- Concrete program for the C10 witness. -/
def c10Prog : Program := ⟨[7], [], some 0⟩

/-- Concrete PIE for the C10 witness. -/
def c10Pie : CairoPie := ⟨⟨[7], [], 0⟩, []⟩

/-- Concrete program input for the C10 witness. -/
def c10Inp : ProgramInput := [("x", 1)]

/-- Concrete file system for the C10 witness: a program at path 0 and a PIE
at path 5. -/
def c10Fs : FileSystem :=
  ⟨fun p => if p = 0 then .ok c10Prog else .error "no file",
   fun p => if p = 5 then .ok c10Pie else .error "no file"⟩

/-- C10 witness: one program and one PIE produce exactly the two tasks in
order, both with `use_poseidon = false`. -/
theorem claim_c10_witness :
    make_bootloader_tasks c10Fs (some [0]) (some [c10Inp]) (some [5]) =
      .ok [.runProgram ⟨c10Prog, c10Inp, false⟩, .cairoPieTask ⟨c10Pie, false⟩] := by
  obtain ⟨ts, hok⟩ :
      ∃ ts, make_bootloader_tasks c10Fs (some [0]) (some [c10Inp]) (some [5])
        = .ok ts := ⟨_, rfl⟩
  obtain ⟨hlen, hprog, hpie⟩ :=
    (claim_c10_make_bootloader_tasks c10Fs [0] [c10Inp] [5] rfl).1 ts hok
  obtain ⟨prog, hp, h0⟩ := hprog 0 0 c10Inp rfl rfl
  obtain ⟨pie, hq, h1⟩ := hpie 0 5 rfl
  have hpc : prog = c10Prog := by
    have h := hp.symm.trans (show c10Fs.program_file 0 = .ok c10Prog from rfl)
    exact Except.ok.inj h
  have hqc : pie = c10Pie := by
    have h := hq.symm.trans (show c10Fs.pie_file 5 = .ok c10Pie from rfl)
    exact Except.ok.inj h
  subst hpc
  subst hqc
  rw [hok]
  congr 1
  have h1' : ts.get? 1 = some (.cairoPieTask ⟨c10Pie, false⟩) := h1
  have hlen' : ts.length = 2 := by simpa using hlen
  apply List.ext
  intro n
  match n with
  | 0 => rw [h0]; rfl
  | 1 => rw [h1']; rfl
  | (n + 2) =>
    rw [List.get?_eq_none.mpr (by omega), List.get?_eq_none.mpr (by simp)]

end CairoBootloader
